import Mathlib

/-!
Shallow embedding of `aggregate_focal_lengths` from
`src/image_metadata_analyzer/utils.py` (ImageMetadataStats).

Python floats are modelled as exact rationals (`ℚ`); a Python
`ZeroDivisionError` is modelled by `Option`, with `none` standing for the
raised exception.  All definitions are translated directly from the source.
-/

namespace ImageMetadataStats

attribute [local semireducible] Rat.add Rat.sub Rat.mul Rat.inv

/-- Multiplicity of `v` in the observation list: `Counter(focal_lengths)[v]`. -/
def countOf (obs : List ℚ) (v : ℚ) : Nat := obs.count v

/-- The distinct observed values in ascending order:
`sorted(Counter(focal_lengths).keys())`. -/
def uniqueSorted (obs : List ℚ) : List ℚ :=
  List.insertionSort (fun a b => a ≤ b) obs.dedup

/-- Python `fl.is_integer()`: the value has no fractional part. -/
def isInteger (q : ℚ) : Bool := q.den == 1

/-- Python `f"{int(fl)}"` for an integer-valued float: decimal rendering of
the (signed) integer. -/
def intStr (q : ℚ) : String := toString q.num

/-- Nearest integer with ties to even, the rounding used by Python fixed
point formatting. -/
def roundHalfEven (q : ℚ) : Int :=
  let f : Int := Int.floor q
  let r : ℚ := q - (f : ℚ)
  if r < 1/2 then f
  else if 1/2 < r then f + 1
  else if f % 2 = 0 then f else f + 1

/-- Python `f"{v:.1f}"`: fixed-point rendering with one decimal digit. -/
def py1f (q : ℚ) : String :=
  let n : Int := roundHalfEven (q * 10)
  let m : Nat := n.natAbs
  let core : String := toString (m / 10) ++ "." ++ toString (m % 10)
  if q < 0 then "-" ++ core else core

/-- Python `s.rstrip(c)` for a one-character strip set: remove every
trailing copy of `c`. -/
def rstrip (c : Char) (s : String) : String :=
  String.mk (((s.data.reverse).dropWhile (fun d => d == c)).reverse)

/-- The local helper `fmt` of the merge branch:
`f"{int(v)}" if v.is_integer() else f"{v:.1f}".rstrip("0").rstrip(".")`. -/
def fmt (v : ℚ) : String :=
  if isInteger v then intStr v
  else rstrip (Char.ofNat 46) (rstrip (Char.ofNat 48) (py1f v))

/-- Label of the no-merge branch:
`f"{int(fl)} mm" if fl.is_integer() else f"{fl:.1f} mm"`. -/
def noMergeLabel (fl : ℚ) : String :=
  if isInteger fl then intStr fl ++ " mm" else py1f fl ++ " mm"

/-- Python `min(group)` (`0` for the never-occurring empty list). -/
def minFl : List ℚ → ℚ
  | [] => 0
  | x :: xs => xs.foldl min x

/-- Python `max(group)` (`0` for the never-occurring empty list). -/
def maxFl : List ℚ → ℚ
  | [] => 0
  | x :: xs => xs.foldl max x

/-- Label of a merged group, from the merge branch of the source. -/
def groupLabel (g : List ℚ) : String :=
  if g.length == 1 then fmt (minFl g) ++ " mm"
  else if fmt (minFl g) == fmt (maxFl g) then fmt (minFl g) ++ " mm"
  else fmt (minFl g) ++ "-" ++ fmt (maxFl g) ++ " mm"

/-- Loop body of `get_groups`: `cur` is the current group (its head is the
anchor `cur[0]`, kept as `anchor`), the remaining sorted values are consumed
left to right.  `none` models the `ZeroDivisionError` raised when the anchor
is exactly `0`. -/
def getGroupsAux (t anchor : ℚ) (cur : List ℚ) : List ℚ → Option (List (List ℚ))
  | [] => some [cur]
  | fl :: rest =>
    if anchor = 0 then none
    else if (fl - anchor) / anchor ≤ t then getGroupsAux t anchor (cur ++ [fl]) rest
    else (getGroupsAux t fl [fl] rest).map (fun gs => cur :: gs)

/-- `get_groups(threshold)` of the source: greedy left-to-right grouping of
the sorted distinct values. -/
def getGroups (t : ℚ) : List ℚ → Option (List (List ℚ))
  | [] => some []
  | x :: rest => getGroupsAux t x [x] rest

/-- The fixed-iteration bisection loop of the source, searching for the
smallest threshold whose group count is at most `m`; `mid = (low + high) / 2`
and a `ZeroDivisionError` inside `get_groups` propagates. -/
def bsearchAux (fls : List ℚ) (m : Int) : Nat → ℚ → ℚ → ℚ → Option ℚ
  | 0, _low, _high, best => some best
  | Nat.succ n, low, high, best =>
    (getGroups ((low + high) / 2) fls).bind (fun gs =>
      if (gs.length : Int) ≤ m then
        bsearchAux fls m n low ((low + high) / 2) ((low + high) / 2)
      else bsearchAux fls m n ((low + high) / 2) high best)

/-- `low = 0.0`, `high = 2.0`, `best_threshold = high`, 20 iterations. -/
def bestThreshold (fls : List ℚ) (m : Int) : Option ℚ :=
  bsearchAux fls m 20 0 2 2

/-- One output bucket of the merge branch:
`(label, sum(counts[fl] for fl in group), min(group))`. -/
def mkBucket (obs : List ℚ) (g : List ℚ) : String × Nat × ℚ :=
  (groupLabel g, (g.map (countOf obs)).sum, minFl g)

/-- `aggregate_focal_lengths(focal_lengths, max_buckets)`.  `none` models a
raised `ZeroDivisionError`. -/
def aggregate (obs : List ℚ) (m : Int) : Option (List (String × Nat × ℚ)) :=
  if obs = [] then some []
  else if ((uniqueSorted obs).length : Int) ≤ m then
    some ((uniqueSorted obs).map (fun fl => (noMergeLabel fl, countOf obs fl, fl)))
  else
    (bestThreshold (uniqueSorted obs) m).bind (fun best =>
      (getGroups best (uniqueSorted obs)).map (fun final => final.map (mkBucket obs)))

/-! Helper lemmas about the greedy sweep. -/

theorem getGroupsAux_spec (t : ℚ) (rest : List ℚ) :
    ∀ (anchor : ℚ) (cur : List ℚ) (gs : List (List ℚ)), cur ≠ [] →
    getGroupsAux t anchor cur rest = some gs →
    gs.flatten = cur ++ rest ∧ ∀ g ∈ gs, g ≠ [] := by
  induction rest with
  | nil =>
    intro anchor cur gs hcur h
    simp only [getGroupsAux, Option.some.injEq] at h
    subst h
    simp [hcur]
  | cons fl rest ih =>
    intro anchor cur gs hcur h
    simp only [getGroupsAux] at h
    split at h
    · simp at h
    · split at h
      · obtain ⟨h1, h2⟩ := ih anchor (cur ++ [fl]) gs (by simp) h
        refine ⟨?_, h2⟩
        rw [h1]
        simp
      · obtain ⟨gs₀, hgs₀, rfl⟩ := Option.map_eq_some'.mp h
        obtain ⟨h1, h2⟩ := ih fl [fl] gs₀ (by simp) hgs₀
        refine ⟨?_, ?_⟩
        · simp only [List.flatten_cons, h1]
          simp
        · intro g hg
          rcases List.mem_cons.mp hg with rfl | hg₀
          · exact hcur
          · exact h2 g hg₀

theorem getGroups_spec (t : ℚ) (fls : List ℚ) (gs : List (List ℚ))
    (h : getGroups t fls = some gs) :
    gs.flatten = fls ∧ ∀ g ∈ gs, g ≠ [] := by
  cases fls with
  | nil =>
    simp only [getGroups, Option.some.injEq] at h
    subst h
    simp
  | cons x rest =>
    have := getGroupsAux_spec t rest x [x] gs (by simp) h
    simpa using this

theorem getGroups_ne_nil (t x : ℚ) (rest : List ℚ) (gs : List (List ℚ))
    (h : getGroups t (x :: rest) = some gs) : gs ≠ [] := by
  intro hnil
  have h1 := (getGroups_spec t (x :: rest) gs h).1
  rw [hnil] at h1
  simp at h1

/-! Helper lemmas about the sorted distinct values. -/

theorem uniqueSorted_perm (obs : List ℚ) : (uniqueSorted obs).Perm obs.dedup :=
  List.perm_insertionSort _ _

theorem uniqueSorted_nodup (obs : List ℚ) : (uniqueSorted obs).Nodup :=
  (uniqueSorted_perm obs).nodup_iff.mpr (List.nodup_dedup obs)

theorem mem_uniqueSorted (obs : List ℚ) (v : ℚ) : v ∈ uniqueSorted obs ↔ v ∈ obs := by
  rw [(uniqueSorted_perm obs).mem_iff, List.mem_dedup]

theorem uniqueSorted_sorted (obs : List ℚ) :
    List.Pairwise (fun a b : ℚ => a ≤ b) (uniqueSorted obs) :=
  List.sorted_insertionSort _ _

theorem uniqueSorted_pairwise_lt (obs : List ℚ) :
    List.Pairwise (fun a b : ℚ => a < b) (uniqueSorted obs) :=
  List.Sorted.lt_of_le (uniqueSorted_sorted obs) (uniqueSorted_nodup obs)

theorem uniqueSorted_nil : uniqueSorted [] = [] := rfl

/-! Counting lemmas: the multiplicities over the distinct values sum to the
length of the observation list. -/

theorem countOf_nil (v : ℚ) : countOf [] v = 0 := rfl

theorem countOf_cons (a v : ℚ) (l : List ℚ) :
    countOf (a :: l) v = countOf l v + (if a = v then 1 else 0) := by
  simp [countOf, List.count_cons]

theorem sum_map_add_nat (u : List ℚ) (f g : ℚ → Nat) :
    (u.map (fun v => f v + g v)).sum = (u.map f).sum + (u.map g).sum := by
  induction u with
  | nil => simp
  | cons a u ih =>
    simp only [List.map_cons, List.sum_cons, ih]
    omega

theorem sum_map_zero (u : List ℚ) : (u.map (fun _ => (0 : Nat))).sum = 0 := by
  induction u with
  | nil => rfl
  | cons b u ihu => simp [ihu]

theorem sum_map_indicator_not_mem (u : List ℚ) (a : ℚ) (h : a ∉ u) :
    (u.map (fun v => if a = v then 1 else 0)).sum = 0 := by
  induction u with
  | nil => simp
  | cons b u ih =>
    have hba : ¬ (a = b) := fun hc => h (hc ▸ List.mem_cons_self b u)
    have hau : a ∉ u := fun hc => h (List.mem_cons_of_mem b hc)
    simp only [List.map_cons, List.sum_cons, ih hau]
    rw [if_neg hba]

theorem sum_map_indicator_mem (u : List ℚ) (a : ℚ) (hu : u.Nodup) (ha : a ∈ u) :
    (u.map (fun v => if a = v then 1 else 0)).sum = 1 := by
  induction u with
  | nil => simp at ha
  | cons b u ih =>
    rcases List.mem_cons.mp ha with rfl | hau
    · have hbu : a ∉ u := (List.nodup_cons.mp hu).1
      simp only [List.map_cons, List.sum_cons, if_pos rfl,
        sum_map_indicator_not_mem u a hbu]
      simp
    · have hba : ¬ (a = b) := by
        intro hc
        subst hc
        exact (List.nodup_cons.mp hu).1 hau
      simp only [List.map_cons, List.sum_cons,
        ih (List.nodup_cons.mp hu).2 hau]
      rw [if_neg hba]

theorem sum_map_countOf (u : List ℚ) (hu : u.Nodup) :
    ∀ (l : List ℚ), (∀ x ∈ l, x ∈ u) → (u.map (countOf l)).sum = l.length := by
  intro l
  induction l with
  | nil =>
    intro _
    have h0 : u.map (countOf []) = u.map (fun _ => 0) :=
      List.map_congr_left (fun v _ => countOf_nil v)
    rw [h0, sum_map_zero]
    rfl
  | cons a l ih =>
    intro hcov
    have h1 : u.map (countOf (a :: l)) =
        u.map (fun v => countOf l v + (if a = v then 1 else 0)) :=
      List.map_congr_left (fun v _ => countOf_cons a v l)
    rw [h1, sum_map_add_nat,
      ih (fun x hx => hcov x (List.mem_cons_of_mem a hx)),
      sum_map_indicator_mem u a hu (hcov a (List.mem_cons_self a l))]
    simp

theorem sum_countOf_uniqueSorted (obs : List ℚ) :
    ((uniqueSorted obs).map (countOf obs)).sum = obs.length :=
  sum_map_countOf (uniqueSorted obs) (uniqueSorted_nodup obs) obs
    (fun x hx => (mem_uniqueSorted obs x).mpr hx)

/-! Minimum of a group. -/

theorem foldl_min_mem (xs : List ℚ) : ∀ (x : ℚ), xs.foldl min x ∈ x :: xs := by
  induction xs with
  | nil =>
    intro x
    simp
  | cons y ys ih =>
    intro x
    have h := ih (min x y)
    simp only [List.foldl_cons]
    rcases List.mem_cons.mp h with h1 | h1
    · rw [h1]
      rcases min_choice x y with h2 | h2 <;> rw [h2] <;> simp
    · simp [h1]

theorem minFl_mem (g : List ℚ) (hg : g ≠ []) : minFl g ∈ g := by
  cases g with
  | nil => exact absurd rfl hg
  | cons x xs => exact foldl_min_mem xs x

theorem foldl_min_of_le (xs : List ℚ) :
    ∀ (x : ℚ), (∀ y ∈ xs, x ≤ y) → xs.foldl min x = x := by
  induction xs with
  | nil =>
    intro x _
    rfl
  | cons y ys ih =>
    intro x h
    simp only [List.foldl_cons]
    rw [min_eq_left (h y (List.mem_cons_self y ys))]
    exact ih x (fun z hz => h z (List.mem_cons_of_mem y hz))

theorem minFl_cons_of_sorted (x : ℚ) (xs : List ℚ)
    (h : List.Pairwise (fun a b : ℚ => a ≤ b) (x :: xs)) : minFl (x :: xs) = x :=
  foldl_min_of_le xs x (List.pairwise_cons.mp h).1

theorem pairwise_lt_map_minFl (gs : List (List ℚ)) (hne : ∀ g ∈ gs, g ≠ [])
    (h : List.Pairwise (fun a b : ℚ => a < b) gs.flatten) :
    List.Pairwise (fun a b : ℚ => a < b) (gs.map minFl) := by
  rw [List.pairwise_flatten] at h
  obtain ⟨-, h2⟩ := h
  rw [List.pairwise_map]
  refine List.Pairwise.imp_of_mem ?_ h2
  intro g₁ g₂ hg₁ hg₂ hlt
  exact hlt (minFl g₁) (minFl_mem g₁ (hne g₁ hg₁)) (minFl g₂) (minFl_mem g₂ (hne g₂ hg₂))

theorem flatten_map_singleton (u : List ℚ) : (u.map (fun v => [v])).flatten = u := by
  induction u with
  | nil => rfl
  | cons a u ih => simp [ih]

/-- Every successful run of `aggregate` arises from a partition of the sorted
distinct values into contiguous nonempty groups: the counts are the groupwise
multiplicity sums and the sort keys the groupwise minima. -/
theorem aggregate_groups (obs : List ℚ) (m : Int) (res : List (String × Nat × ℚ))
    (h : aggregate obs m = some res) :
    ∃ gs : List (List ℚ), gs.flatten = uniqueSorted obs ∧ (∀ g ∈ gs, g ≠ []) ∧
      res.map (fun b => b.2.1) = gs.map (fun g => (g.map (countOf obs)).sum) ∧
      res.map (fun b => b.2.2) = gs.map minFl := by
  unfold aggregate at h
  split at h
  · rename_i hnil
    rw [Option.some.injEq] at h
    subst h
    subst hnil
    exact ⟨[], rfl, by simp, rfl, rfl⟩
  · split at h
    · rw [Option.some.injEq] at h
      subst h
      refine ⟨(uniqueSorted obs).map (fun v => [v]), flatten_map_singleton _, ?_, ?_, ?_⟩
      · intro g hg
        obtain ⟨v, -, rfl⟩ := List.mem_map.mp hg
        simp
      · simp only [List.map_map]
        rfl
      · simp only [List.map_map]
        rfl
    · obtain ⟨best, hbt, h2⟩ := Option.bind_eq_some.mp h
      obtain ⟨final, hgg, h3⟩ := Option.map_eq_some'.mp h2
      subst h3
      obtain ⟨hflat, hne⟩ := getGroups_spec best (uniqueSorted obs) final hgg
      refine ⟨final, hflat, hne, ?_, ?_⟩
      · simp only [List.map_map]
        rfl
      · simp only [List.map_map]
        rfl

/-! Helper lemmas about the bisection loop. -/

/-- The returned `best_threshold` is either the initial `high = 2` or a
threshold whose group count meets the cap. -/
theorem bsearchAux_best (fls : List ℚ) (m : Int) (n : Nat) :
    ∀ (low high best : ℚ),
    (best = 2 ∨ ∃ gs, getGroups best fls = some gs ∧ (gs.length : Int) ≤ m) →
    ∀ b, bsearchAux fls m n low high best = some b →
    b = 2 ∨ ∃ gs, getGroups b fls = some gs ∧ (gs.length : Int) ≤ m := by
  induction n with
  | zero =>
    intro low high best hbest b hb
    simp only [bsearchAux, Option.some.injEq] at hb
    subst hb
    exact hbest
  | succ n ih =>
    intro low high best hbest b hb
    simp only [bsearchAux] at hb
    obtain ⟨gs, hgg, hrec⟩ := Option.bind_eq_some.mp hb
    split at hrec
    · rename_i hle
      exact ih low _ _ (Or.inr ⟨gs, hgg, hle⟩) b hrec
    · exact ih _ high best hbest b hrec

/-- For a non-positive cap the group-count test never succeeds, so the loop
is independent of the cap. -/
theorem bsearchAux_nonpos (x : ℚ) (rest : List ℚ) (m m' : Int)
    (hm : m ≤ 0) (hm' : m' ≤ 0) (n : Nat) : ∀ (low high best : ℚ),
    bsearchAux (x :: rest) m n low high best = bsearchAux (x :: rest) m' n low high best := by
  induction n with
  | zero =>
    intro low high best
    rfl
  | succ n ih =>
    intro low high best
    simp only [bsearchAux]
    cases hgg : getGroups ((low + high) / 2) (x :: rest) with
    | none => rfl
    | some gs =>
      have hne : gs ≠ [] := getGroups_ne_nil _ x rest gs hgg
      have hpos : 1 ≤ gs.length := List.length_pos.mpr hne
      have h1 : ¬ ((gs.length : Int) ≤ m) := by omega
      have h2 : ¬ ((gs.length : Int) ≤ m') := by omega
      simp only [Option.some_bind, if_neg h1, if_neg h2]
      exact ih _ _ _

/-! Helper lemmas for a negative minimum: with a negative anchor the relative
test is non-positive, hence at most any non-negative threshold. -/

theorem getGroupsAux_neg_anchor (t anchor : ℚ) (ht : 0 ≤ t) (hneg : anchor < 0) :
    ∀ (rest cur : List ℚ), (∀ fl ∈ rest, anchor ≤ fl) →
    getGroupsAux t anchor cur rest = some [cur ++ rest] := by
  intro rest
  induction rest with
  | nil =>
    intro cur _
    simp [getGroupsAux]
  | cons fl rest ih =>
    intro cur hle
    simp only [getGroupsAux]
    rw [if_neg (ne_of_lt hneg), if_pos]
    · rw [ih (cur ++ [fl]) (fun z hz => hle z (List.mem_cons_of_mem fl hz))]
      simp
    · have h1 : 0 ≤ fl - anchor := by
        have := hle fl (List.mem_cons_self fl rest)
        linarith
      have h2 : (fl - anchor) / anchor ≤ 0 :=
        div_nonpos_iff.mpr (Or.inl ⟨h1, le_of_lt hneg⟩)
      linarith

theorem getGroups_neg_head (t x : ℚ) (rest : List ℚ) (ht : 0 ≤ t) (hx : x < 0)
    (hs : ∀ fl ∈ rest, x ≤ fl) :
    getGroups t (x :: rest) = some [x :: rest] := by
  simp only [getGroups]
  rw [getGroupsAux_neg_anchor t x ht hx rest [x] hs]
  simp

theorem bsearchAux_neg_head (x : ℚ) (rest : List ℚ) (m : Int) (hx : x < 0)
    (hs : ∀ fl ∈ rest, x ≤ fl) (n : Nat) :
    ∀ (low high best : ℚ), 0 ≤ low → 0 ≤ high → 0 ≤ best →
    ∃ b, bsearchAux (x :: rest) m n low high best = some b ∧ 0 ≤ b := by
  induction n with
  | zero =>
    intro low high best _ _ hb
    exact ⟨best, rfl, hb⟩
  | succ n ih =>
    intro low high best hl hh hb
    have hmid : 0 ≤ (low + high) / 2 := by positivity
    simp only [bsearchAux]
    rw [getGroups_neg_head _ x rest hmid hx hs]
    simp only [Option.some_bind]
    by_cases hc : (([x :: rest].length : Int) ≤ m)
    · rw [if_pos hc]
      exact ih low _ _ hl hmid hmid
    · rw [if_neg hc]
      exact ih _ high best hmid hh hb

theorem sum_map_sum_eq_flatten (gs : List (List ℚ)) (f : ℚ → Nat) :
    (gs.map (fun g => (g.map f).sum)).sum = (gs.flatten.map f).sum := by
  induction gs with
  | nil => rfl
  | cons g gs ih => simp [List.flatten_cons, ih]

theorem groupLabel_shape (g : List ℚ) :
    groupLabel g = fmt (minFl g) ++ " mm" ∨
    groupLabel g = fmt (minFl g) ++ "-" ++ fmt (maxFl g) ++ " mm" := by
  unfold groupLabel
  split
  · exact Or.inl rfl
  · split
    · exact Or.inl rfl
    · exact Or.inr rfl

/-! The claims. -/

/-- C1, counterexample: with observations `[1.0, 10.0]` and `max_buckets = 1`
the gap exceeds the search's 200% ceiling, so `aggregate` returns two
buckets, violating `len(result) <= max(1, max_buckets)`. -/
theorem C1_cap_counterexample :
    aggregate [(1:ℚ), 10] 1 = some [("1 mm", 1, 1), ("10 mm", 1, 10)] ∧
    ¬ ((([("1 mm", (1:Nat), (1:ℚ)), ("10 mm", 1, 10)] :
        List (String × Nat × ℚ)).length : Int) ≤ max 1 1) := by
  decide

/-- C1, amended: the number of buckets returned by `aggregate` is at most
`max(1, max_buckets)` unless even the maximal search threshold `2.0` leaves
more than `max_buckets` groups, in which case the result is exactly the
greedy grouping at threshold `2.0`. -/
theorem C1_cap_amended (obs : List ℚ) (m : Int) (res : List (String × Nat × ℚ))
    (h : aggregate obs m = some res) :
    ((res.length : Int) ≤ max 1 m) ∨
    (∃ gs, getGroups 2 (uniqueSorted obs) = some gs ∧ res.length = gs.length) := by
  unfold aggregate at h
  split at h
  · left
    rw [Option.some.injEq] at h
    subst h
    have h1 : ((List.length ([] : List (String × Nat × ℚ)) : Int)) = 0 := rfl
    rw [h1]
    exact le_trans (by norm_num) (le_max_left 1 m)
  · split at h
    · rename_i hle
      left
      rw [Option.some.injEq] at h
      subst h
      rw [List.length_map]
      exact le_trans hle (le_max_right 1 m)
    · obtain ⟨best, hbt, h2⟩ := Option.bind_eq_some.mp h
      obtain ⟨final, hgg, h3⟩ := Option.map_eq_some'.mp h2
      subst h3
      rcases bsearchAux_best (uniqueSorted obs) m 20 0 2 2 (Or.inl rfl) best hbt with
        h4 | ⟨gs, hgs, hlen⟩
      · right
        subst h4
        exact ⟨final, hgg, by rw [List.length_map]⟩
      · left
        rw [hgs, Option.some.injEq] at hgg
        subst hgg
        rw [List.length_map]
        exact le_trans hlen (le_max_right 1 m)

/-- C1, witness for the amended theorem at `obs = [1.0, 10.0]`,
`max_buckets = 1`. -/
theorem C1_cap_amended_witness :
    ((([("1 mm", (1:Nat), (1:ℚ)), ("10 mm", 1, 10)] :
        List (String × Nat × ℚ)).length : Int) ≤ max 1 1) ∨
    (∃ gs, getGroups 2 (uniqueSorted [(1:ℚ), 10]) = some gs ∧
      ([("1 mm", (1:Nat), (1:ℚ)), ("10 mm", 1, 10)] :
        List (String × Nat × ℚ)).length = gs.length) :=
  C1_cap_amended [(1:ℚ), 10] 1 [("1 mm", 1, 1), ("10 mm", 1, 10)] (by decide)

/-- C2: whenever `aggregate` returns, its buckets come from a partition of
the sorted distinct values into contiguous nonempty groups (a single greedy
sweep): the groups flatten back to the distinct values, none is empty, the
counts are the groupwise multiplicity sums, the sort keys the groupwise
minima, and the counts sum to the number of observations. -/
theorem C2_partition_conservation (obs : List ℚ) (m : Int)
    (res : List (String × Nat × ℚ)) (h : aggregate obs m = some res) :
    ∃ gs : List (List ℚ), gs.flatten = uniqueSorted obs ∧ (∀ g ∈ gs, g ≠ []) ∧
      res.map (fun b => b.2.1) = gs.map (fun g => (g.map (countOf obs)).sum) ∧
      res.map (fun b => b.2.2) = gs.map minFl ∧
      (res.map (fun b => b.2.1)).sum = obs.length := by
  obtain ⟨gs, h1, h2, h3, h4⟩ := aggregate_groups obs m res h
  refine ⟨gs, h1, h2, h3, h4, ?_⟩
  rw [h3, sum_map_sum_eq_flatten, h1, sum_countOf_uniqueSorted]

/-- C2, witness at `obs = [50.0]`, `max_buckets = 25`. -/
theorem C2_partition_conservation_witness :
    ∃ gs : List (List ℚ), gs.flatten = uniqueSorted [(50:ℚ)] ∧ (∀ g ∈ gs, g ≠ []) ∧
      ([("50 mm", (1:Nat), (50:ℚ))] : List (String × Nat × ℚ)).map (fun b => b.2.1)
        = gs.map (fun g => (g.map (countOf [(50:ℚ)])).sum) ∧
      ([("50 mm", (1:Nat), (50:ℚ))] : List (String × Nat × ℚ)).map (fun b => b.2.2)
        = gs.map minFl ∧
      (([("50 mm", (1:Nat), (50:ℚ))] : List (String × Nat × ℚ)).map
        (fun b => b.2.1)).sum = ([(50:ℚ)] : List ℚ).length :=
  C2_partition_conservation [(50:ℚ)] 25 [("50 mm", 1, 50)] (by decide)

/-- C3 (code bug): the observation list `[0.0, 1.0, 2.0]` contains `0.0` and
`max_buckets = 2 ≥ 1`, yet `aggregate` raises `ZeroDivisionError` (modelled
as `none`): the zero anchor is not guarded, contradicting the claim. -/
theorem C3_zero_anchor_raises : aggregate [(0:ℚ), 1, 2] 2 = none := by decide

/-- C4, counterexample: `aggregate([10.04], 0)` takes the merge path and
labels the bucket `"10 mm"`, while `aggregate([10.04], 1)` takes the
no-merge path and labels it `"10.0 mm"`, so `max_buckets ≤ 0` is not
equivalent to clamping to `1`; moreover `aggregate([0.0, 1.0], 0)` raises. -/
theorem C4_clamp_counterexample :
    aggregate [(251:ℚ)/25] 0 ≠ aggregate [(251:ℚ)/25] 1 ∧
    aggregate [(0:ℚ), 1] 0 = none := by decide

/-- C4, amended: `aggregate` does not clamp a non-positive `max_buckets` to
`1`; instead all non-positive caps behave identically (the group-count test
never succeeds, leaving the threshold at `2.0`), and the result can both
differ from `aggregate(obs, 1)` and raise on a zero minimum. -/
theorem C4_nonpos_uniform (obs : List ℚ) (m m' : Int) (hm : m ≤ 0) (hm' : m' ≤ 0) :
    aggregate obs m = aggregate obs m' := by
  unfold aggregate
  split
  · rfl
  · rename_i hnil
    have hmem : ∃ a, a ∈ uniqueSorted obs := by
      cases obs with
      | nil => exact absurd rfl hnil
      | cons a obs' => exact ⟨a, (mem_uniqueSorted _ a).mpr (List.mem_cons_self a obs')⟩
    obtain ⟨a, ha⟩ := hmem
    have hlen : 1 ≤ (uniqueSorted obs).length := List.length_pos.mpr (List.ne_nil_of_mem ha)
    rw [if_neg (by omega), if_neg (by omega)]
    cases hu : uniqueSorted obs with
    | nil =>
      rw [hu] at hlen
      simp at hlen
    | cons x rest =>
      unfold bestThreshold
      rw [bsearchAux_nonpos x rest m m' hm hm' 20 0 2 2]

/-- C4, witness for the amended theorem at `obs = [1.0, 2.0]`,
caps `-1` and `-5`. -/
theorem C4_nonpos_uniform_witness :
    aggregate [(1:ℚ), 2] (-1) = aggregate [(1:ℚ), 2] (-5) :=
  C4_nonpos_uniform [(1:ℚ), 2] (-1) (-5) (by decide) (by decide)

/-- C5: when the number of distinct values is at most `max_buckets`,
`aggregate` returns one bucket per distinct value in ascending order, with
the exact multiplicity as count, the value itself as sort key, the no-merge
label (integer rendering for whole values, one decimal otherwise), and the
counts sum to the number of observations. -/
theorem C5_no_merge_exact (obs : List ℚ) (m : Int)
    (h : ((uniqueSorted obs).length : Int) ≤ m) :
    aggregate obs m =
      some ((uniqueSorted obs).map (fun fl => (noMergeLabel fl, countOf obs fl, fl))) ∧
    ((uniqueSorted obs).map (countOf obs)).sum = obs.length ∧
    (uniqueSorted obs).Nodup ∧
    (∀ v : ℚ, v ∈ uniqueSorted obs ↔ v ∈ obs) := by
  refine ⟨?_, sum_countOf_uniqueSorted obs, uniqueSorted_nodup obs, mem_uniqueSorted obs⟩
  unfold aggregate
  by_cases hnil : obs = []
  · subst hnil
    rfl
  · rw [if_neg hnil, if_pos h]

/-- C5, witness at `obs = [2.0, 1.0, 2.0]`, `max_buckets = 3`. -/
theorem C5_no_merge_exact_witness :
    aggregate [(2:ℚ), 1, 2] 3 =
      some ((uniqueSorted [(2:ℚ), 1, 2]).map
        (fun fl => (noMergeLabel fl, countOf [(2:ℚ), 1, 2] fl, fl))) ∧
    ((uniqueSorted [(2:ℚ), 1, 2]).map (countOf [(2:ℚ), 1, 2])).sum
      = ([(2:ℚ), 1, 2] : List ℚ).length ∧
    (uniqueSorted [(2:ℚ), 1, 2]).Nodup ∧
    (∀ v : ℚ, v ∈ uniqueSorted [(2:ℚ), 1, 2] ↔ v ∈ ([(2:ℚ), 1, 2] : List ℚ)) :=
  C5_no_merge_exact [(2:ℚ), 1, 2] 3 (by decide)

/-- C6: the literal forced-merge scenario:
`aggregate([10, 11, 20, 21, 30, 31], 3)` yields exactly the three buckets
`("10-11 mm", 2, 10.0)`, `("20-21 mm", 2, 20.0)`, `("30-31 mm", 2, 30.0)`
in ascending sort-key order. -/
theorem C6_forced_merge :
    aggregate [(10:ℚ), 11, 20, 21, 30, 31] 3 =
      some [("10-11 mm", 2, 10), ("20-21 mm", 2, 20), ("30-31 mm", 2, 30)] := by
  decide

/-- C7: the literal proximity-preference scenario:
`aggregate([16, 20, 300, 304], 3)` merges only the relatively closest pair
`300, 304` and keeps `16` and `20` separate. -/
theorem C7_proximity_preference :
    aggregate [(16:ℚ), 20, 300, 304] 3 =
      some [("16 mm", 1, 16), ("20 mm", 1, 20), ("300-304 mm", 2, 300)] := by
  decide

/-- C8, counterexample: in the no-merge path the one-decimal rendering is
not stripped: `aggregate([10.04], 1)` labels the bucket `"10.0 mm"` even
though the strip rule would render `10.04` as `"10"`. -/
theorem C8_format_counterexample :
    aggregate [(251:ℚ)/25] 1 = some [("10.0 mm", 1, (251:ℚ)/25)] ∧
    fmt ((251:ℚ)/25) = "10" ∧ ("10.0 mm" : String) ≠ "10 mm" := by decide

/-- C8, amended: the trailing-zero stripping rule applies exactly to the
merge-path labels (every merge bucket label is `fmt(min) mm` or
`fmt(min)-fmt(max) mm`), while the no-merge path renders a non-whole value
with one decimal place without stripping. -/
theorem C8_strip_only_in_merge :
    (∀ (obs : List ℚ) (m : Int) (res : List (String × Nat × ℚ)),
      aggregate obs m = some res → ¬ (((uniqueSorted obs).length : Int) ≤ m) →
      ∀ b ∈ res, ∃ g : List ℚ, g ≠ [] ∧ b = mkBucket obs g ∧
        (b.1 = fmt (minFl g) ++ " mm" ∨
         b.1 = fmt (minFl g) ++ "-" ++ fmt (maxFl g) ++ " mm")) ∧
    (∀ fl : ℚ, isInteger fl = false → noMergeLabel fl = py1f fl ++ " mm") := by
  constructor
  · intro obs m res h hgt b hb
    unfold aggregate at h
    by_cases hnil : obs = []
    · rw [if_pos hnil, Option.some.injEq] at h
      subst h
      simp at hb
    · rw [if_neg hnil, if_neg hgt] at h
      obtain ⟨best, hbt, h2⟩ := Option.bind_eq_some.mp h
      obtain ⟨final, hgg, h3⟩ := Option.map_eq_some'.mp h2
      subst h3
      obtain ⟨g, hgmem, rfl⟩ := List.mem_map.mp hb
      have hne := (getGroups_spec best (uniqueSorted obs) final hgg).2 g hgmem
      exact ⟨g, hne, rfl, groupLabel_shape g⟩
  · intro fl hfl
    unfold noMergeLabel
    rw [if_neg (by simp [hfl])]

/-- C8, witness for the amended theorem at `obs = [1.0, 10.0]`,
`max_buckets = 1`, first bucket. -/
theorem C8_strip_only_in_merge_witness :
    ∃ g : List ℚ, g ≠ [] ∧
      (("1 mm", (1:Nat), (1:ℚ)) : String × Nat × ℚ) = mkBucket [(1:ℚ), 10] g ∧
      ((("1 mm", (1:Nat), (1:ℚ)) : String × Nat × ℚ).1 = fmt (minFl g) ++ " mm" ∨
       (("1 mm", (1:Nat), (1:ℚ)) : String × Nat × ℚ).1
         = fmt (minFl g) ++ "-" ++ fmt (maxFl g) ++ " mm") :=
  C8_strip_only_in_merge.1 [(1:ℚ), 10] 1 [("1 mm", 1, 1), ("10 mm", 1, 10)]
    (by decide) (by decide) ("1 mm", 1, 1) (by decide)

/-- C9: whenever `aggregate` returns, the sort keys are strictly ascending
(the order in which the greedy groups were formed), and each sort key is the
minimum of the values folded into its bucket. -/
theorem C9_ascending_minima (obs : List ℚ) (m : Int) (res : List (String × Nat × ℚ))
    (h : aggregate obs m = some res) :
    List.Pairwise (fun a b : ℚ => a < b) (res.map (fun b => b.2.2)) ∧
    ∃ gs : List (List ℚ), gs.flatten = uniqueSorted obs ∧ (∀ g ∈ gs, g ≠ []) ∧
      res.map (fun b => b.2.2) = gs.map minFl := by
  obtain ⟨gs, h1, h2, h3, h4⟩ := aggregate_groups obs m res h
  refine ⟨?_, gs, h1, h2, h4⟩
  rw [h4]
  apply pairwise_lt_map_minFl gs h2
  rw [h1]
  exact uniqueSorted_pairwise_lt obs

/-- C9, witness at `obs = [50.0]`, `max_buckets = 25`. -/
theorem C9_ascending_minima_witness :
    List.Pairwise (fun a b : ℚ => a < b)
      (([("50 mm", (1:Nat), (50:ℚ))] : List (String × Nat × ℚ)).map (fun b => b.2.2)) ∧
    ∃ gs : List (List ℚ), gs.flatten = uniqueSorted [(50:ℚ)] ∧ (∀ g ∈ gs, g ≠ []) ∧
      ([("50 mm", (1:Nat), (50:ℚ))] : List (String × Nat × ℚ)).map (fun b => b.2.2)
        = gs.map minFl :=
  C9_ascending_minima [(50:ℚ)] 25 [("50 mm", 1, 50)] (by decide)

/-- C10: if the smallest distinct value is negative and merging is required,
every relative test is non-positive, so the greedy sweep folds everything
into one group: `aggregate` returns a single bucket whose count is the whole
observation list and whose sort key is the negative minimum. -/
theorem C10_negative_min_single_bucket (obs : List ℚ) (m : Int) (x : ℚ)
    (rest : List ℚ) (hu : uniqueSorted obs = x :: rest) (hx : x < 0)
    (hgt : ¬ (((uniqueSorted obs).length : Int) ≤ m)) :
    aggregate obs m = some [(groupLabel (x :: rest), obs.length, x)] := by
  have hsorted : List.Pairwise (fun a b : ℚ => a ≤ b) (x :: rest) := by
    rw [← hu]
    exact uniqueSorted_sorted obs
  have hs : ∀ fl ∈ rest, x ≤ fl := (List.pairwise_cons.mp hsorted).1
  have hnil : obs ≠ [] := by
    intro hc
    subst hc
    rw [uniqueSorted_nil] at hu
    exact List.cons_ne_nil x rest hu.symm
  unfold aggregate
  rw [if_neg hnil, if_neg hgt, hu]
  obtain ⟨b, hb, hb0⟩ :=
    bsearchAux_neg_head x rest m hx hs 20 0 2 2 (by norm_num) (by norm_num) (by norm_num)
  unfold bestThreshold
  rw [hb]
  simp only [Option.some_bind]
  rw [getGroups_neg_head b x rest hb0 hx hs]
  simp only [Option.map_some']
  rw [Option.some.injEq]
  simp only [List.map_cons, List.map_nil]
  simp only [mkBucket]
  have hcount : ((x :: rest).map (countOf obs)).sum = obs.length := by
    rw [← hu]
    exact sum_countOf_uniqueSorted obs
  have hmin : minFl (x :: rest) = x := minFl_cons_of_sorted x rest hsorted
  rw [hcount, hmin]

/-- C10, witness at `obs = [-1.0, 1.0, 2.0]`, `max_buckets = 2`. -/
theorem C10_negative_min_single_bucket_witness :
    aggregate [(-1:ℚ), 1, 2] 2 = some [("-1-2 mm", 3, -1)] := by
  rw [C10_negative_min_single_bucket [(-1:ℚ), 1, 2] 2 (-1) [1, 2]
    (by decide) (by decide) (by decide)]
  decide

end ImageMetadataStats
